import Mathlib

/-!
Verification of the word-frequency analysis core and the translation
stage of the elpais_scraper repository.

The analyzer (src/src/analyzer.py, class WordAnalyzer) is embedded as
pure functions over lists of characters:

  - `tokenize` models the tokenization step of `count_words`:
    `header.lower()` followed by `re.findall(r"\b[a-z]+\b", ...)` and
    the comprehension keeping words of length > 2.
  - `counter` models `collections.Counter(all_words)`: a mapping from
    word to count whose keys are ordered by first arrival.
  - `count_words`, `filter_repeated_words`, `analyze_headers` follow
    the methods of the same names.

The translator (src/src/translator.py, class ArticleTranslator) is
embedded with the external googletrans service abstracted as an oracle
giving, for each input text and attempt number, either the translated
text or `none` when that attempt raises.

The embedding models the ASCII fragment of Python string semantics:
`str.lower` is mapped per character by `Char.toLower`, and the regex
word class `\w` is modelled by ASCII alphanumerics and underscore.
-/

namespace ElPais

/-- A token: a word as a list of characters. -/
abbrev Token := List Char

/-- The regex character class `[a-z]` of the pattern in `count_words`. -/
def isLowerAlpha (c : Char) : Bool := 'a' ≤ c && c ≤ 'z'

/-- The regex word class `\w` (ASCII fragment): alphanumeric or underscore.
The boundary assertion `\b` holds between a word and a non-word character. -/
def isWordChar (c : Char) : Bool :=
  isLowerAlpha c || ('A' ≤ c && c ≤ 'Z') || ('0' ≤ c && c ≤ '9') || c = '_'

/-- Model of `header.lower()` on the ASCII fragment. -/
def strLower (s : List Char) : List Char := s.map Char.toLower

/-- Model of `re.findall(r"\b[a-z]+\b", s)`: the maximal runs of `[a-z]`
characters whose neighbouring characters, when present, are not word
characters (both ends must satisfy the `\b` assertion; a run with a word
character, for example a digit, adjacent on either side is not matched,
and no proper sub-run of it is matched either, since any sub-run has a
word character next to it). The flag `prevWord` records whether the
character immediately before the current position is a word character. -/
def findWords : Bool → List Char → List Token
  | _, [] => []
  | prevWord, c :: cs =>
    if isLowerAlpha c then
      (if prevWord then []
       else if (cs.dropWhile isLowerAlpha).head?.all (fun d => !isWordChar d) then
         [c :: cs.takeWhile isLowerAlpha]
       else []) ++ findWords true (cs.dropWhile isLowerAlpha)
    else
      findWords (isWordChar c) cs
termination_by _ l => l.length
decreasing_by
  · simp only [List.length_cons]
    exact Nat.lt_succ_of_le (List.dropWhile_sublist _).length_le
  · simp only [List.length_cons]
    exact Nat.lt_succ_of_le (Nat.le_refl _)

/-- The tokenization step of `WordAnalyzer.count_words`: lowercase the
header, extract the words, keep those of length > 2. -/
def tokenize (header : List Char) : List Token :=
  (findWords false (strLower header)).filter (fun w => w.length > 2)

/-- One update step of `collections.Counter`: increment the count of `w`,
inserting it at the end with count 1 when absent (dict insertion order). -/
def bump (w : Token) : List (Token × Nat) → List (Token × Nat)
  | [] => [(w, 1)]
  | (k, n) :: rest => if k = w then (k, n + 1) :: rest else (k, n) :: bump w rest

/-- Model of `collections.Counter(all_words)`: counts of the elements of
`ws`, keys ordered by first occurrence in `ws`. -/
def counter (ws : List Token) : List (Token × Nat) :=
  ws.foldl (fun acc w => bump w acc) []

/-- Model of `WordAnalyzer.count_words`: tokenize every header, put all
tokens in one list, and count occurrences. -/
def count_words (headers : List (List Char)) : List (Token × Nat) :=
  counter (headers.flatMap tokenize)

/-- Model of `WordAnalyzer.filter_repeated_words`: the dict comprehension
keeping the entries whose count is at least `min_occurrences`. The
threshold is an `Int` since any Python integer can be configured. -/
def filter_repeated_words (min_occurrences : Int)
    (word_counts : List (Token × Nat)) : List (Token × Nat) :=
  word_counts.filter (fun p => min_occurrences ≤ (p.2 : Int))

/-- The default of the `min_occurrences` parameter of
`WordAnalyzer.__init__`. -/
def defaultMinOccurrences : Int := 3

/-- Model of `sorted(repeated_words.items(), key=lambda x: x[1],
reverse=True)`: a stable sort by count descending. -/
def sortByCountDesc (l : List (Token × Nat)) : List (Token × Nat) :=
  l.mergeSort (fun a b => b.2 ≤ a.2)

/-- Model of `WordAnalyzer.analyze_headers`: count, filter, sort. -/
def analyze_headers (min_occurrences : Int)
    (translated_headers : List (List Char)) : List (Token × Nat) :=
  sortByCountDesc (filter_repeated_words min_occurrences
    (count_words translated_headers))

/-- Count looked up in a table, 0 when the key is absent, as
`Counter.__getitem__` returns 0 for a missing key. -/
def lookup (w : Token) : List (Token × Nat) → Nat
  | [] => 0
  | (k, n) :: rest => if k = w then n else lookup w rest

/-- The largest count in a table, 0 for the empty table. -/
def maxCount (table : List (Token × Nat)) : Nat :=
  (table.map Prod.snd).foldr max 0

/-- The elements of `ws` with later duplicates removed: each element
appears once, at the position of its first occurrence. `seen` is the set
of elements already emitted. -/
def dedupFirstAux (seen : List Token) : List Token → List Token
  | [] => []
  | w :: ws =>
    if w ∈ seen then dedupFirstAux seen ws
    else w :: dedupFirstAux (w :: seen) ws

/-- The elements of `ws` in first-seen order, each exactly once. -/
def dedupFirst (ws : List Token) : List Token := dedupFirstAux [] ws

/-- A run kept by the regex: nonempty and consisting of `[a-z]` characters
only. -/
def goodRun (r : List Char) : Bool := !r.isEmpty && r.all isLowerAlpha

/-- The tokenizer as claim C2 words it: the maximal runs of lowercase
alphabetic characters of the lowercased string, bounded by non-alphabetic
characters or string edges, keeping those of length > 2. -/
def claimTokenizeAlphaBounded (header : List Char) : List Token :=
  ((strLower header).splitOnP (fun c => !isLowerAlpha c)).filter
    (fun r => r.length > 2)

/-- The tokenizer characterized through regex word boundaries: among the
maximal runs of word characters of the lowercased string (runs bounded by
non-word characters or string edges), those made of lowercase alphabetic
characters only, keeping those of length > 2. -/
def wordBoundedAlphaRuns (header : List Char) : List Token :=
  (((strLower header).splitOnP (fun c => !isWordChar c)).filter
    goodRun).filter (fun r => r.length > 2)

/-! Embedding of src/src/translator.py. The googletrans service is
abstracted as an oracle `svc : String → Nat → Option String`: for an
input text and an attempt number, the translated text, or `none` when
`translator.translate` raises on that attempt. -/

/-- The retry loop of `ArticleTranslator.translate_text`: attempt
translation up to `remaining` more times; a successful attempt returns
its result, a failed last attempt (and an exhausted loop) returns the
original text. -/
def translateLoop (att : Nat → Option String) (text : String) :
    Nat → Nat → String
  | _, 0 => text
  | attempt, remaining + 1 =>
    match att attempt with
    | some translated => translated
    | none =>
      if remaining = 0 then text
      else translateLoop att text (attempt + 1) remaining

/-- Model of `ArticleTranslator.translate_text`: empty text short-circuits
to the empty string; otherwise run the retry loop from attempt 0. -/
def translate_text (svc : String → Nat → Option String) (text : String)
    (retry_count : Nat := 3) : String :=
  if text = "" then "" else translateLoop (svc text) text 0 retry_count

/-- Model of `ArticleTranslator.translate_titles`: translate each title in
order with the default retry count, collecting the results. -/
def translate_titles (svc : String → Nat → Option String)
    (titles : List String) : List String :=
  titles.map (fun title => translate_text svc title)

/-! Lemmas about the counter. -/

theorem lookup_bump (w v : Token) (acc : List (Token × Nat)) :
    lookup w (bump v acc) = lookup w acc + (if v = w then 1 else 0) := by
  induction acc with
  | nil =>
    by_cases h : v = w <;> simp [bump, lookup, h]
  | cons p rest ih =>
    obtain ⟨k, n⟩ := p
    by_cases hk : k = v
    · subst hk
      by_cases hw : k = w <;> simp [bump, lookup, hw]
    · by_cases hw : k = w
      · have hvw : ¬ v = w := fun h => hk (hw.trans h.symm)
        have hwv : ¬ w = v := fun h => hk (hw.trans h)
        simp [bump, lookup, hk, hw, hvw, hwv]
      · simp [bump, lookup, hk, hw, ih]

theorem lookup_foldl (w : Token) :
    ∀ (ws : List Token) (acc : List (Token × Nat)),
      lookup w (ws.foldl (fun a x => bump x a) acc) =
        lookup w acc + ws.count w := by
  intro ws
  induction ws with
  | nil => intro acc; simp
  | cons v ws ih =>
    intro acc
    rw [List.foldl_cons, ih (bump v acc), lookup_bump, List.count_cons]
    by_cases h : v = w <;> simp [h] <;> omega

theorem lookup_counter (w : Token) (ws : List Token) :
    lookup w (counter ws) = ws.count w := by
  unfold counter
  rw [lookup_foldl]
  simp [lookup]

theorem bump_pos (v : Token) :
    ∀ (acc : List (Token × Nat)), (∀ q ∈ acc, 1 ≤ q.2) →
      ∀ p ∈ bump v acc, 1 ≤ p.2 := by
  intro acc
  induction acc with
  | nil =>
    intro _ p hp
    simp only [bump, List.mem_singleton] at hp
    simp [hp]
  | cons q rest ih =>
    obtain ⟨k, n⟩ := q
    intro h p hp
    by_cases hk : k = v
    · simp only [bump, if_pos hk, List.mem_cons] at hp
      rcases hp with hp | hp
      · simp [hp]
      · exact h p (List.mem_cons_of_mem _ hp)
    · simp only [bump, if_neg hk, List.mem_cons] at hp
      rcases hp with hp | hp
      · exact hp ▸ h (k, n) (List.mem_cons_self _ _)
      · exact ih (fun q hq => h q (List.mem_cons_of_mem _ hq)) p hp

theorem counter_pos (ws : List Token) : ∀ p ∈ counter ws, 1 ≤ p.2 := by
  suffices h : ∀ (l : List Token) (acc : List (Token × Nat)),
      (∀ q ∈ acc, 1 ≤ q.2) →
      ∀ p ∈ l.foldl (fun a x => bump x a) acc, 1 ≤ p.2 by
    exact h ws [] (by simp)
  intro l
  induction l with
  | nil => intro acc hacc p hp; exact hacc p hp
  | cons v l ih =>
    intro acc hacc p hp
    exact ih (bump v acc) (bump_pos v acc hacc) p hp

theorem keys_bump (v : Token) :
    ∀ (acc : List (Token × Nat)),
      (bump v acc).map Prod.fst =
        if v ∈ acc.map Prod.fst then acc.map Prod.fst
        else acc.map Prod.fst ++ [v] := by
  intro acc
  induction acc with
  | nil => simp [bump]
  | cons q rest ih =>
    obtain ⟨k, n⟩ := q
    by_cases hk : k = v
    · simp [bump, hk]
    · have hvk : ¬ v = k := fun h => hk h.symm
      by_cases hv : v ∈ rest.map Prod.fst <;>
        simp [bump, hk, hvk, hv, ih]

theorem mem_dedupFirstAux (x : Token) :
    ∀ (l : List Token) (seen : List Token),
      x ∈ dedupFirstAux seen l ↔ x ∈ l ∧ x ∉ seen := by
  intro l
  induction l with
  | nil => intro seen; simp [dedupFirstAux]
  | cons w ws ih =>
    intro seen
    by_cases hw : w ∈ seen
    · rw [dedupFirstAux, if_pos hw, ih]
      constructor
      · rintro ⟨h1, h2⟩; exact ⟨List.mem_cons_of_mem _ h1, h2⟩
      · rintro ⟨h1, h2⟩
        rcases List.mem_cons.mp h1 with h1 | h1
        · exact absurd (h1 ▸ hw) h2
        · exact ⟨h1, h2⟩
    · rw [dedupFirstAux, if_neg hw]
      by_cases hx : x = w
      · subst hx; simp [hw]
      · rw [List.mem_cons, ih]
        simp [hx, List.mem_cons]

theorem dedupFirstAux_append (w : Token) :
    ∀ (l : List Token) (seen : List Token),
      dedupFirstAux seen (l ++ [w]) =
        dedupFirstAux seen l ++ (if w ∈ seen ∨ w ∈ l then [] else [w]) := by
  intro l
  induction l with
  | nil =>
    intro seen
    by_cases hw : w ∈ seen <;> simp [dedupFirstAux, hw]
  | cons v vs ih =>
    intro seen
    by_cases hv : v ∈ seen
    · rw [List.cons_append, dedupFirstAux, if_pos hv, dedupFirstAux,
        if_pos hv, ih]
      by_cases hw : w = v
      · subst hw; simp [hv]
      · simp [hw]
    · rw [List.cons_append, dedupFirstAux, if_neg hv, dedupFirstAux,
        if_neg hv, ih, List.cons_append]
      by_cases hw : w = v
      · subst hw; simp
      · simp [hw, List.mem_cons]

theorem keys_counter (ws : List Token) :
    (counter ws).map Prod.fst = dedupFirst ws := by
  induction ws using List.reverseRecOn with
  | nil => rfl
  | append_singleton l w ih =>
    have hc : counter (l ++ [w]) = bump w (counter l) := by
      unfold counter
      rw [List.foldl_append, List.foldl_cons, List.foldl_nil]
    rw [hc, keys_bump, ih]
    unfold dedupFirst
    rw [dedupFirstAux_append]
    have hmem : w ∈ dedupFirstAux [] l ↔ w ∈ l := by
      rw [mem_dedupFirstAux]; simp
    by_cases hw : w ∈ l
    · simp [dedupFirst, hmem, hw]
    · simp [dedupFirst, hmem, hw]

theorem mem_keys_counter (w : Token) (ws : List Token) :
    w ∈ (counter ws).map Prod.fst ↔ w ∈ ws := by
  rw [keys_counter]
  unfold dedupFirst
  rw [mem_dedupFirstAux]
  simp

/-! Lemmas about the descending stable sort. -/

theorem countLE_trans (a b c : Token × Nat) :
    (fun (x y : Token × Nat) => decide (y.2 ≤ x.2)) a b →
    (fun (x y : Token × Nat) => decide (y.2 ≤ x.2)) b c →
    (fun (x y : Token × Nat) => decide (y.2 ≤ x.2)) a c := by
  simp only [decide_eq_true_eq]
  omega

theorem countLE_total (a b : Token × Nat) :
    ((fun (x y : Token × Nat) => decide (y.2 ≤ x.2)) a b ||
     (fun (x y : Token × Nat) => decide (y.2 ≤ x.2)) b a) = true := by
  simp only [Bool.or_eq_true, decide_eq_true_eq]
  omega

theorem sortByCountDesc_perm (l : List (Token × Nat)) :
    List.Perm (sortByCountDesc l) l :=
  List.mergeSort_perm l _

theorem sortByCountDesc_sorted (l : List (Token × Nat)) :
    (sortByCountDesc l).Pairwise (fun a b => b.2 ≤ a.2) := by
  have h := List.sorted_mergeSort countLE_trans countLE_total l
  exact h.imp (fun hab => of_decide_eq_true hab)

theorem filter_sortByCountDesc (l : List (Token × Nat)) (c : Nat) :
    (sortByCountDesc l).filter (fun p => p.2 == c) =
      l.filter (fun p => p.2 == c) := by
  have hsub : List.Sublist (l.filter (fun p => p.2 == c)) (sortByCountDesc l) := by
    apply List.sublist_mergeSort countLE_trans countLE_total
    · apply List.pairwise_of_forall_mem_list
      intro a ha b hb
      have ha2 : a.2 = c := by
        have := (List.mem_filter.mp ha).2
        simpa using this
      have hb2 : b.2 = c := by
        have := (List.mem_filter.mp hb).2
        simpa using this
      simp [ha2, hb2]
    · exact List.filter_sublist l
  have h1 : List.Sublist (l.filter (fun p => p.2 == c))
      ((sortByCountDesc l).filter (fun p => p.2 == c)) := by
    have h2 := hsub.filter (fun p => p.2 == c)
    simpa using h2
  have hperm : List.Perm ((sortByCountDesc l).filter (fun p => p.2 == c))
      (l.filter (fun p => p.2 == c)) :=
    (sortByCountDesc_perm l).filter _
  exact (h1.eq_of_length hperm.length_eq.symm).symm

/-! Lemmas about the translator. -/

theorem translateLoop_none (att : Nat → Option String) (text : String)
    (h : ∀ a, att a = none) :
    ∀ (r s : Nat), translateLoop att text s r = text := by
  intro r
  induction r with
  | zero => intro s; rfl
  | succ r ih =>
    intro s
    unfold translateLoop
    rw [h s]
    by_cases hr : r = 0 <;> simp [hr, ih]

theorem translate_text_allfail (svc : String → Nat → Option String)
    (t : String) (h : ∀ a, svc t a = none) (rc : Nat) :
    translate_text svc t rc = t := by
  unfold translate_text
  by_cases ht : t = ""
  · simp [ht]
  · simp [ht, translateLoop_none (svc t) t h]

/-! Lemmas characterizing the regex scan through splitOnP. -/

theorem findWords_nil (b : Bool) : findWords b [] = [] := by
  rw [findWords]

theorem findWords_cons (b : Bool) (c : Char) (cs : List Char) :
    findWords b (c :: cs) =
      if isLowerAlpha c then
        (if b then []
         else if (cs.dropWhile isLowerAlpha).head?.all
             (fun d => !isWordChar d) then
           [c :: cs.takeWhile isLowerAlpha]
         else []) ++ findWords true (cs.dropWhile isLowerAlpha)
      else findWords (isWordChar c) cs := by
  rw [findWords]

theorem findWords_cons_false (c : Char) (cs : List Char) :
    findWords false (c :: cs) =
      if isLowerAlpha c then
        (if (cs.dropWhile isLowerAlpha).head?.all
             (fun d => !isWordChar d) then
           [c :: cs.takeWhile isLowerAlpha]
         else []) ++ findWords true (cs.dropWhile isLowerAlpha)
      else findWords (isWordChar c) cs := by
  rw [findWords_cons]
  simp

theorem findWords_cons_true (c : Char) (cs : List Char) :
    findWords true (c :: cs) =
      if isLowerAlpha c then findWords true (cs.dropWhile isLowerAlpha)
      else findWords (isWordChar c) cs := by
  rw [findWords_cons]
  simp

theorem wordChar_of_lowerAlpha {c : Char} (h : isLowerAlpha c = true) :
    isWordChar c = true := by
  unfold isWordChar
  rw [h]
  rfl

theorem dropWhile_head_false (p : Char → Bool) :
    ∀ (l : List Char) (d : Char) (t : List Char),
      l.dropWhile p = d :: t → p d = false := by
  intro l
  induction l with
  | nil => intro d t h; simp at h
  | cons c cs ih =>
    intro d t h
    by_cases hc : p c
    · rw [List.dropWhile_cons_of_pos hc] at h
      exact ih d t h
    · rw [List.dropWhile_cons_of_neg hc] at h
      injection h with h1 h2
      subst h1
      exact Bool.eq_false_iff.mpr hc

theorem takeWhile_append_all (p : Char → Bool) :
    ∀ (A l2 : List Char), (∀ x ∈ A, p x = true) →
      (A ++ l2).takeWhile p = A ++ l2.takeWhile p := by
  intro A
  induction A with
  | nil => intro l2 _; rfl
  | cons a A ih =>
    intro l2 h
    rw [List.cons_append,
      List.takeWhile_cons_of_pos (h a (List.mem_cons_self _ _)),
      ih l2 (fun x hx => h x (List.mem_cons_of_mem _ hx)),
      List.cons_append]

theorem splitOnP_word (l : List Char) :
    l.splitOnP (fun c => !isWordChar c) =
      l.takeWhile isWordChar ::
        (match l.dropWhile isWordChar with
         | [] => []
         | _ :: t => t.splitOnP (fun c => !isWordChar c)) := by
  induction l with
  | nil => simp [List.splitOnP_nil]
  | cons c cs ih =>
    by_cases hc : isWordChar c
    · rw [List.splitOnP_cons,
        if_neg (show ¬ ((!isWordChar c) = true) by simp [hc]), ih,
        List.modifyHead_cons, List.takeWhile_cons_of_pos hc,
        List.dropWhile_cons_of_pos hc]
    · rw [List.splitOnP_cons,
        if_pos (show (!isWordChar c) = true by simp [hc]),
        List.takeWhile_cons_of_neg hc, List.dropWhile_cons_of_neg hc]

theorem filter_goodRun_tail (l : List Char) :
    (match l.dropWhile isWordChar with
     | [] => []
     | _ :: t => t.splitOnP (fun c => !isWordChar c)).filter goodRun =
      ((l.dropWhile isWordChar).splitOnP (fun c => !isWordChar c)).filter
        goodRun := by
  cases hdw : l.dropWhile isWordChar with
  | nil => simp [List.splitOnP_nil, goodRun]
  | cons d t =>
    have hd : isWordChar d = false := dropWhile_head_false isWordChar l d t hdw
    rw [List.splitOnP_cons, if_pos (show (!isWordChar d) = true by simp [hd]),
      List.filter_cons]
    simp [goodRun]

theorem dropWhile_word_dropWhile_alpha (l : List Char) :
    (l.dropWhile isLowerAlpha).dropWhile isWordChar =
      l.dropWhile isWordChar := by
  induction l with
  | nil => rfl
  | cons c cs ih =>
    by_cases ha : isLowerAlpha c
    · rw [List.dropWhile_cons_of_pos ha, ih,
        List.dropWhile_cons_of_pos (wordChar_of_lowerAlpha ha)]
    · rw [List.dropWhile_cons_of_neg ha]

theorem takeWhile_word_eq_alpha :
    ∀ (l : List Char),
      (l.dropWhile isLowerAlpha).head?.all (fun d => !isWordChar d) = true →
      l.takeWhile isWordChar = l.takeWhile isLowerAlpha := by
  intro l
  induction l with
  | nil => intro _; rfl
  | cons c cs ih =>
    intro h
    by_cases ha : isLowerAlpha c
    · rw [List.dropWhile_cons_of_pos ha] at h
      rw [List.takeWhile_cons_of_pos (wordChar_of_lowerAlpha ha),
        List.takeWhile_cons_of_pos ha, ih h]
    · rw [List.dropWhile_cons_of_neg ha] at h
      simp only [List.head?_cons, Option.all_some, Bool.not_eq_true',
        Bool.not_eq_true] at h
      rw [List.takeWhile_cons_of_neg (by simp [h]),
        List.takeWhile_cons_of_neg ha]

theorem findWords_splitOnP :
    ∀ (n : Nat) (l : List Char), l.length ≤ n →
      findWords false l =
          (l.splitOnP (fun c => !isWordChar c)).filter goodRun ∧
        findWords true l =
          ((l.dropWhile isWordChar).splitOnP
            (fun c => !isWordChar c)).filter goodRun := by
  intro n
  induction n with
  | zero =>
    intro l hl
    have hnil : l = [] := List.eq_nil_of_length_eq_zero (Nat.le_zero.mp hl)
    subst hnil
    constructor <;> simp [findWords_nil, List.splitOnP_nil, goodRun]
  | succ n ih =>
    intro l hl
    cases l with
    | nil => constructor <;> simp [findWords_nil, List.splitOnP_nil, goodRun]
    | cons c cs =>
      have hcs : cs.length ≤ n := Nat.le_of_succ_le_succ hl
      have hdrop : (cs.dropWhile isLowerAlpha).length ≤ n :=
        Nat.le_trans (List.dropWhile_sublist _).length_le hcs
      by_cases ha : isLowerAlpha c
      · have hw : isWordChar c = true := wordChar_of_lowerAlpha ha
        have htail : findWords true (cs.dropWhile isLowerAlpha) =
            ((cs.dropWhile isWordChar).splitOnP
              (fun c => !isWordChar c)).filter goodRun := by
          rw [(ih _ hdrop).2, dropWhile_word_dropWhile_alpha]
        constructor
        · rw [findWords_cons_false, if_pos ha, htail,
            splitOnP_word (c :: cs), List.takeWhile_cons_of_pos hw,
            List.filter_cons, filter_goodRun_tail (c :: cs),
            List.dropWhile_cons_of_pos hw]
          by_cases hok : (cs.dropWhile isLowerAlpha).head?.all
              (fun d => !isWordChar d) = true
          · have htw : cs.takeWhile isWordChar = cs.takeWhile isLowerAlpha :=
              takeWhile_word_eq_alpha cs hok
            have hgood : goodRun (c :: cs.takeWhile isWordChar) = true := by
              rw [htw]
              unfold goodRun
              simp only [List.isEmpty_cons, Bool.not_false, Bool.true_and,
                List.all_cons, ha]
              rw [List.all_eq_true]
              intro x hx
              exact List.mem_takeWhile_imp hx
            rw [if_pos hok, if_pos hgood, htw, List.singleton_append]
          · obtain ⟨d, t, hdt⟩ : ∃ d t, cs.dropWhile isLowerAlpha = d :: t := by
              cases hE : cs.dropWhile isLowerAlpha with
              | nil => exact absurd (by rw [hE]; rfl) hok
              | cons d t => exact ⟨d, t, rfl⟩
            have hwd : isWordChar d = true := by
              rw [hdt] at hok
              simp only [List.head?_cons, Option.all_some,
                Bool.not_eq_true'] at hok
              cases hb : isWordChar d with
              | false => exact absurd hb hok
              | true => rfl
            have hda : isLowerAlpha d = false :=
              dropWhile_head_false isLowerAlpha cs d t hdt
            have hcs2 : cs = cs.takeWhile isLowerAlpha ++ (d :: t) := by
              rw [← hdt]
              exact (List.takeWhile_append_dropWhile _ _).symm
            have htw2 : cs.takeWhile isWordChar =
                cs.takeWhile isLowerAlpha ++ d :: t.takeWhile isWordChar := by
              conv_lhs => rw [hcs2]
              rw [takeWhile_append_all isWordChar _ _
                (fun x hx => wordChar_of_lowerAlpha (List.mem_takeWhile_imp hx)),
                List.takeWhile_cons_of_pos hwd]
            have hgood : goodRun (c :: cs.takeWhile isWordChar) = false := by
              unfold goodRun
              have hmem : d ∈ c :: cs.takeWhile isWordChar := by
                rw [htw2]
                exact List.mem_cons_of_mem _
                  (List.mem_append_right _ (List.mem_cons_self _ _))
              have hall : (c :: cs.takeWhile isWordChar).all isLowerAlpha = false :=
                List.all_eq_false.mpr ⟨d, hmem, by simp [hda]⟩
              rw [hall]
              simp
            rw [if_neg hok, if_neg (by simp [hgood]), List.nil_append]
        · rw [findWords_cons_true, if_pos ha, htail,
            List.dropWhile_cons_of_pos hw]
      · by_cases hwc : isWordChar c = true
        · have hIH := (ih cs hcs).2
          have hca : isLowerAlpha c = false := Bool.eq_false_iff.mpr ha
          constructor
          · rw [findWords_cons_false, if_neg ha, hwc, hIH,
              splitOnP_word (c :: cs), List.takeWhile_cons_of_pos hwc,
              List.filter_cons, filter_goodRun_tail (c :: cs),
              List.dropWhile_cons_of_pos hwc]
            have hgood : goodRun (c :: cs.takeWhile isWordChar) = false := by
              unfold goodRun
              have hall : (c :: cs.takeWhile isWordChar).all isLowerAlpha = false :=
                List.all_eq_false.mpr ⟨c, List.mem_cons_self _ _, by simp [hca]⟩
              rw [hall]
              simp
            rw [if_neg (by simp [hgood])]
          · rw [findWords_cons_true, if_neg ha, hwc, hIH,
              List.dropWhile_cons_of_pos hwc]
        · have hcf : isWordChar c = false := Bool.eq_false_iff.mpr hwc
          have hIH := (ih cs hcs).1
          constructor
          · rw [findWords_cons_false, if_neg ha, hcf, hIH,
              List.splitOnP_cons,
              if_pos (show (!isWordChar c) = true by simp [hcf]),
              List.filter_cons, if_neg (by simp [goodRun])]
          · rw [findWords_cons_true, if_neg ha, hcf, hIH,
              List.dropWhile_cons_of_neg hwc, List.splitOnP_cons,
              if_pos (show (!isWordChar c) = true by simp [hcf]),
              List.filter_cons, if_neg (by simp [goodRun])]

/-- The tokenizer of the code coincides with the word-boundary
characterization: the all-lowercase maximal word runs of length > 2. -/
theorem tokenize_eq_wordBounded (s : List Char) :
    tokenize s = wordBoundedAlphaRuns s := by
  unfold tokenize wordBoundedAlphaRuns
  rw [(findWords_splitOnP (strLower s).length (strLower s) (Nat.le_refl _)).1]

/-- Every count of a table bounds at its maximum. -/
theorem le_maxCount (table : List (Token × Nat)) :
    ∀ p ∈ table, p.2 ≤ maxCount table := by
  induction table with
  | nil => intro p hp; cases hp
  | cons q rest ih =>
    intro p hp
    unfold maxCount
    rw [List.map_cons, List.foldr_cons]
    rcases List.mem_cons.mp hp with hp | hp
    · exact hp ▸ Nat.le_max_left _ _
    · exact (ih p hp).trans (Nat.le_max_right _ _)

/-- C1 counterexample: invoking the threshold filter with min_occurrences
0 raises nothing; the call returns normally and even the entry of count 1
is kept, so no InvalidConfiguration error reaches the caller. -/
theorem claim_C1_counterexample :
    filter_repeated_words 0 [((['t', 'h', 'e'] : Token), 1)] =
      [((['t', 'h', 'e'] : Token), 1)] := by decide

/-- C1 (amended): no validation of the threshold is performed and no error
is ever raised at filter invocation; for every threshold t ≤ 0 and every
table satisfying the FrequencyTable invariant (all counts ≥ 1) the filter
returns the whole table unchanged, and for positive t it simply filters. -/
theorem claim_C1 (t : Int) (table : List (Token × Nat))
    (hpos : ∀ p ∈ table, 1 ≤ p.2) (ht : t ≤ 0) :
    filter_repeated_words t table = table := by
  unfold filter_repeated_words
  rw [List.filter_eq_self]
  intro p hp
  have h1 := hpos p hp
  simp only [decide_eq_true_eq]
  omega

/-- Witness for C1 (amended) at t = -1 and a concrete one-entry table. -/
theorem claim_C1_witness :
    (∀ p ∈ [((['c', 'a', 't'] : Token), 2)], 1 ≤ p.2) ∧ (-1 : Int) ≤ 0 ∧
      filter_repeated_words (-1) [((['c', 'a', 't'] : Token), 2)] =
        [((['c', 'a', 't'] : Token), 2)] :=
  ⟨by decide, by decide, claim_C1 (-1) _ (by decide) (by decide)⟩

/-- C3: the FrequencyTable built by count_words maps each token to its
total number of individual occurrences over all headlines (per-headline
repeats included), and no headlines yield the empty table. -/
theorem claim_C3 :
    (∀ (headers : List (List Char)) (w : Token),
        lookup w (count_words headers) =
          (headers.flatMap tokenize).count w) ∧
      count_words [] = [] := by
  constructor
  · intro headers w
    unfold count_words
    exact lookup_counter w _
  · rfl

/-- C4: filter_repeated_words keeps exactly the entries of its input
whose count is at least the threshold, each with its unchanged count, and
the default threshold of the analyzer is 3. -/
theorem claim_C4 :
    (∀ (t : Int) (table : List (Token × Nat)),
        List.Sublist (filter_repeated_words t table) table) ∧
      (∀ (t : Int) (table : List (Token × Nat)) (w : Token) (c : Nat),
        (w, c) ∈ filter_repeated_words t table ↔
          (w, c) ∈ table ∧ t ≤ (c : Int)) ∧
      defaultMinOccurrences = 3 := by
  refine ⟨fun t table => List.filter_sublist table, fun t table w c => ?_, rfl⟩
  unfold filter_repeated_words
  rw [List.mem_filter]
  simp

/-- C5: analyze_headers is the composition count-words, then the
threshold filter, then the descending sort by count, and its output is
ordered by count descending. -/
theorem claim_C5 (t : Int) (hs : List (List Char)) :
    analyze_headers t hs =
        sortByCountDesc (filter_repeated_words t (count_words hs)) ∧
      (analyze_headers t hs).Pairwise (fun a b => b.2 ≤ a.2) :=
  ⟨rfl, sortByCountDesc_sorted _⟩

/-- C6: with threshold 1, analyze_headers returns exactly the tokens that
occur at least once in the input; with a threshold strictly greater than
the maximum token count it returns the empty result. -/
theorem claim_C6 :
    (∀ (hs : List (List Char)) (w : Token),
        w ∈ (analyze_headers 1 hs).map Prod.fst ↔
          w ∈ hs.flatMap tokenize) ∧
      (∀ (hs : List (List Char)) (t : Int),
        (maxCount (count_words hs) : Int) < t → analyze_headers t hs = []) := by
  constructor
  · intro hs w
    have hfil : filter_repeated_words 1 (count_words hs) = count_words hs := by
      unfold filter_repeated_words
      rw [List.filter_eq_self]
      intro p hp
      have h1 : 1 ≤ p.2 := counter_pos _ p hp
      simp only [decide_eq_true_eq]
      omega
    unfold analyze_headers sortByCountDesc
    rw [hfil]
    constructor
    · intro hmem
      rcases List.mem_map.mp hmem with ⟨p, hp, hpw⟩
      rw [List.mem_mergeSort] at hp
      have hkey : w ∈ (count_words hs).map Prod.fst :=
        List.mem_map.mpr ⟨p, hp, hpw⟩
      exact (mem_keys_counter w _).mp hkey
    · intro hmem
      have hkey : w ∈ (count_words hs).map Prod.fst :=
        (mem_keys_counter w _).mpr hmem
      rcases List.mem_map.mp hkey with ⟨p, hp, hpw⟩
      exact List.mem_map.mpr ⟨p, List.mem_mergeSort.mpr hp, hpw⟩
  · intro hs t ht
    have hfil : filter_repeated_words t (count_words hs) = [] := by
      unfold filter_repeated_words
      rw [List.filter_eq_nil_iff]
      intro p hp
      have h2 : p.2 ≤ maxCount (count_words hs) := le_maxCount _ p hp
      simp only [decide_eq_true_eq]
      omega
    unfold analyze_headers
    rw [hfil]
    simp [sortByCountDesc]

/-- Witness for C6 (empty-result half) at the empty headline list and
threshold 1. -/
theorem claim_C6_witness :
    ((maxCount (count_words ([] : List (List Char))) : Int) < 1) ∧
      analyze_headers 1 ([] : List (List Char)) = [] :=
  ⟨by decide, claim_C6.2 [] 1 (by decide)⟩

/-- C7: filtering is idempotent; filtering an already-filtered table with
the same threshold returns it unchanged. -/
theorem claim_C7 (t : Int) (table : List (Token × Nat)) :
    filter_repeated_words t (filter_repeated_words t table) =
      filter_repeated_words t table := by
  unfold filter_repeated_words
  rw [List.filter_filter]
  apply List.filter_congr
  intro p hp
  simp

/-- C8: the analysis is case-insensitive; two headlines equal up to letter
case give the same analyze_headers result at threshold 1. -/
theorem claim_C8 (s s2 : List Char) (h : strLower s = strLower s2) :
    analyze_headers 1 [s] = analyze_headers 1 [s2] := by
  have htok : tokenize s = tokenize s2 := by
    unfold tokenize
    rw [h]
  unfold analyze_headers count_words
  rw [List.flatMap_cons, List.flatMap_nil, List.flatMap_cons,
    List.flatMap_nil, htok]

/-- Witness for C8 at the pair from the spec, "The Cat" and "the cat". -/
theorem claim_C8_witness :
    strLower "The Cat".data = strLower "the cat".data ∧
      analyze_headers 1 ["The Cat".data] = analyze_headers 1 ["the cat".data] :=
  ⟨by decide, claim_C8 _ _ (by decide)⟩

/-- C9: translate_titles returns one string per input string, in order;
the i-th output is the translation of the i-th input, and an item whose
every attempt fails is replaced by the original string while the rest of
the list is still produced. -/
theorem claim_C9 (svc : String → Nat → Option String)
    (titles : List String) :
    (translate_titles svc titles).length = titles.length ∧
      (∀ i : Nat, (translate_titles svc titles)[i]? =
        (titles[i]?).map (fun t => translate_text svc t)) ∧
      (∀ (i : Nat) (t : String), titles[i]? = some t →
        (∀ a, svc t a = none) →
        (translate_titles svc titles)[i]? = some t) := by
  refine ⟨List.length_map _ _, fun i => List.getElem?_map _ _ _,
    fun i t hit hfail => ?_⟩
  unfold translate_titles
  rw [List.getElem?_map, hit]
  simp [translate_text_allfail svc t hfail 3]

/-- Witness for C9 at a one-element list whose every attempt fails. -/
theorem claim_C9_witness :
    (["hola"] : List String)[0]? = some "hola" ∧
      (∀ a : Nat,
        (fun (_ : String) (_ : Nat) => (none : Option String)) "hola" a = none) ∧
      (translate_titles (fun _ _ => none) ["hola"])[0]? = some "hola" :=
  ⟨rfl, fun _ => rfl,
    (claim_C9 (fun _ _ => none) ["hola"]).2.2 0 "hola" rfl (fun _ => rfl)⟩

/-- C10: the descending sort is stable over the insertion-ordered
accumulator; entries of equal count keep the order of the filtered table,
and their tokens appear in first-seen order (a sublist of the tokens of
the headline stream in first-occurrence order). -/
theorem claim_C10 (t : Int) (hs : List (List Char)) (c : Nat) :
    (analyze_headers t hs).filter (fun p => p.2 == c) =
        (filter_repeated_words t (count_words hs)).filter
          (fun p => p.2 == c) ∧
      List.Sublist
        (((analyze_headers t hs).filter (fun p => p.2 == c)).map Prod.fst)
        (dedupFirst (hs.flatMap tokenize)) := by
  have h1 : (analyze_headers t hs).filter (fun p => p.2 == c) =
      (filter_repeated_words t (count_words hs)).filter
        (fun p => p.2 == c) :=
    filter_sortByCountDesc _ c
  refine ⟨h1, ?_⟩
  rw [h1]
  have h2 : List.Sublist
      ((filter_repeated_words t (count_words hs)).filter
        (fun p => p.2 == c))
      (count_words hs) :=
    (List.filter_sublist _).trans (List.filter_sublist _)
  have h3 := h2.map Prod.fst
  rw [show (count_words hs) = counter (hs.flatMap tokenize) from rfl,
    keys_counter] at h3
  exact h3

/-- C2 counterexample: the tokenizer emits no token at all for
"covid19", while the claim wording (alphabetic-bounded maximal runs)
would emit "covid"; the regex word boundary also excludes runs adjacent
to digits. -/
theorem claim_C2_counterexample :
    tokenize "covid19".data = [] ∧
      claimTokenizeAlphaBounded "covid19".data =
        [['c', 'o', 'v', 'i', 'd']] := by
  constructor
  · rw [tokenize_eq_wordBounded]
    decide
  · decide

/-- C2 (amended): the tokenizer produces exactly the maximal runs of word
characters of the lowercased string (bounded by non-word characters or
string edges) that consist of lowercase alphabetic characters only and
have length > 2; digits and punctuation are never part of a token, and a
run adjacent to a digit or underscore is not emitted at all. -/
theorem claim_C2 (s : List Char) : tokenize s = wordBoundedAlphaRuns s :=
  tokenize_eq_wordBounded s

end ElPais
